import Mathlib

/-!
Verification of the safe-math library (src/safe-math.js) against its
natural-language specification.

The library operates on JavaScript values: numbers, strings, booleans,
null, undefined, wrapper objects, plain objects exposing a `valueOf`
capability, arrays, and Error objects.  The embedding models a finite
JavaScript number by the rational value of its decimal string form
(`Number.prototype.toString` prints the shortest decimal that round-trips,
so on the library's stated domain — decimals within the double-precision
integer-safe range — the map from written decimals to doubles is injective
and arithmetic on the scaled integers is exact).  Model boundaries, each
marked where it occurs in the definitions below:
* the exact-decimal layer reads each host operation as exact rational
  arithmetic; where a claim turns on the rounding the host actually
  performs, the separate binary64 refinement layer (`fpRound`, `expandFP`,
  `addFP`, ...) models round-to-nearest-even double arithmetic explicitly;
* the non-finite numbers `Infinity` and `-Infinity` are outside the model;
  NaN is modelled explicitly (`Option.none` where a number is expected).
-/

namespace SafeMath

/-- JavaScript values as the library consumes them.  `num` is a finite
number (see the header comment for the exact-decimal reading), `nan` the
NaN primitive, `box` a wrapper object (`new Number(..)`, `new String(..)`,
`new Boolean(..)`) whose `toString`/`valueOf` expose the wrapped primitive,
`objV` a plain object with a custom `valueOf` (its `toString` is the
default `"[object Object]"`), and `err` an Error object. -/
inductive JSVal where
  | num (q : ℚ)
  | nan
  | str (s : String)
  | bool (b : Bool)
  | null
  | undef
  | box (v : JSVal)
  | objV (v : JSVal)
  | arr (l : List JSVal)
  | err (s : String)

/-- Characters the `trim` of `isNumeric` removes (the common JavaScript
whitespace; exotic Unicode spaces are outside the model). -/
def isJsSpace (c : Char) : Bool :=
  c = ' ' || c = '\t' || c = '\n' || c = '\r'

/-- Model of `String.prototype.trim`. -/
def jsTrim (s : String) : String :=
  ⟨((s.data.dropWhile isJsSpace).reverse.dropWhile isJsSpace).reverse⟩

/-- Model of `v.replace(/[,]/g, '')`: remove every comma. -/
def stripCommas (s : String) : String :=
  ⟨s.data.filter (fun c => !(c = ','))⟩

/-- The four textual forms `/^(NaN|null|undefined|)$/` matches. -/
def invalidForm (s : String) : Bool :=
  s = "NaN" || s = "null" || s = "undefined" || s = ""

/-- Whether `/^(NaN|null|undefined|)$/.test(v)` holds for a non-string
value `v`: the regex coerces `v` with `ToString`.  A finite number never
prints as one of the four forms; booleans print `"true"`/`"false"`;
wrappers print their wrapped primitive; a plain object prints
`"[object Object]"`; an Error prints `"Error: ..."`; an array prints its
comma-join, which is one of the four forms exactly when the array is empty
(join `""`) or its single element itself prints as one of them. -/
def regexInvalid : JSVal → Bool
  | .num _ => false
  | .nan => true
  | .null => true
  | .undef => true
  | .bool _ => false
  | .str s => invalidForm s
  | .box v => regexInvalid v
  | .objV _ => false
  | .err _ => false
  | .arr [] => true
  | .arr [v] => regexInvalid v
  | .arr (_ :: _ :: _) => false

/-- Model of `isNumeric` (src/safe-math.js:342-361): strings first lose
their commas and surrounding whitespace; the value is numeric unless its
textual form matches `/^(NaN|null|undefined|)$/`. -/
def isNumeric (a : JSVal) : Bool :=
  match a with
  | .str s => !invalidForm (jsTrim (stripCommas s))
  | v => !regexInvalid v

/-- Model of `getValues` (src/safe-math.js:324-330): if the first supplied
argument is an array it is taken as the whole series (further arguments are
dropped, as `values = values[0]` discards them), then non-numeric members
are filtered out. -/
def getValues (values : List JSVal) : List JSVal :=
  (match values with
   | .arr l :: _ => l
   | _ => values).filter isNumeric

/-- Numeric value of a run of decimal digit characters. -/
def digitsToNat (cs : List Char) : ℕ :=
  cs.foldl (fun a c => a * 10 + (c.toNat - 48)) 0

/-- Split a character list at the first character satisfying `p`; the
second component is `none` when no such character occurs. -/
def splitFirst (p : Char → Bool) : List Char → List Char × Option (List Char)
  | [] => ([], none)
  | c :: cs =>
    if p c then ([], some cs)
    else
      let r := splitFirst p cs
      (c :: r.1, r.2)

/-- Consume an optional leading sign; `true` means negative. -/
def parseSign : List Char → Bool × List Char
  | '-' :: cs => (true, cs)
  | '+' :: cs => (false, cs)
  | cs => (false, cs)

/-- Model of the host's ToNumber on a string: surrounding whitespace is
ignored, the empty string converts to `0`, and a signed decimal literal
with optional fraction and exponent converts to its value; anything else
is NaN (`none`).  The strings `"Infinity"`/`"-Infinity"` and radix-prefixed
literals convert to host values outside the exact model's numeric domain
and are mapped to `none` here (model boundary; no claim exercises them). -/
def jsStringToNumber (s : String) : Option ℚ :=
  let t := (jsTrim s).data
  if t = [] then some 0
  else
    let (neg, t1) := parseSign t
    let (mant, expPart) := splitFirst (fun c => c = 'e' || c = 'E') t1
    let (ip, fpOpt) := splitFirst (fun c => c = '.') mant
    let fp := fpOpt.getD []
    if !(ip.all Char.isDigit) || !(fp.all Char.isDigit) || (ip = [] && fp = []) then
      none
    else
      let base : ℚ := (digitsToNat ip : ℚ) + (digitsToNat fp : ℚ) / 10 ^ fp.length
      let signed : ℚ := if neg then -base else base
      match expPart with
      | none => some signed
      | some ecs =>
        let (eneg, ed) := parseSign ecs
        if ed = [] || !(ed.all Char.isDigit) then none
        else
          let ex : ℤ := if eneg then -(digitsToNat ed : ℤ) else (digitsToNat ed : ℤ)
          some (signed * 10 ^ ex)

/-- Numeric conversion of a value rendered inside an array's comma-join
(`String([x]) = String(x)`, with `null`/`undefined` rendering empty): the
conversion the `*` operator applies to an array operand. -/
def joinToNumber : JSVal → Option ℚ
  | .null => some 0
  | .undef => some 0
  | .num q => some q
  | .nan => none
  | .str s => jsStringToNumber s
  | .bool _ => none
  | .box v => joinToNumber v
  | .objV _ => none
  | .err _ => none
  | .arr [] => some 0
  | .arr [v] => joinToNumber v
  | .arr (_ :: _ :: _) => none

/-- Model of the host's ToNumber coercion (as applied by unary `+` and by
`*` on already-unwrapped operands): `null → 0`, `undefined → NaN`,
booleans to `1`/`0`, strings via the numeric-literal grammar (commas are
NOT stripped here), objects through their `valueOf`, arrays through their
comma-join. -/
def jsToNumber : JSVal → Option ℚ
  | .num q => some q
  | .nan => none
  | .null => some 0
  | .undef => none
  | .bool b => some (if b then 1 else 0)
  | .str s => jsStringToNumber s
  | .box v => jsToNumber v
  | .objV v => jsToNumber v
  | .err _ => none
  | .arr [] => some 0
  | .arr [v] => joinToNumber v
  | .arr (_ :: _ :: _) => none

/-- Per-operand coercion inside `expand` after `Object(x).valueOf()`
(src/safe-math.js:385-398): a string-typed result loses its commas and is
converted with unary `+`; every other result is coerced numerically by the
`*` operator in the final multiplication. -/
def expandValueOf : JSVal → Option ℚ
  | .str s => jsStringToNumber (stripCommas s)
  | .box v => expandValueOf v
  | .objV v => expandValueOf v
  | v => jsToNumber v

/-- Operand coercion of `expand`: `Object(x).valueOf()` turns `null` and
`undefined` into fresh plain objects, which multiply to NaN; all other
values follow `expandValueOf`. -/
def expandNum : JSVal → Option ℚ
  | .null => none
  | .undef => none
  | v => expandValueOf v

/-- Fuel-driven p-adic valuation of a natural number, written with
structural recursion so the kernel can evaluate it inside `decide`. -/
def padValAux (p : ℕ) : ℕ → ℕ → ℕ
  | 0, _ => 0
  | fuel + 1, n =>
    if 0 < n ∧ n % p = 0 ∧ 2 ≤ p then padValAux p fuel (n / p) + 1 else 0

/-- Multiplicity of the prime `p` in `n` (`fuel := n` suffices, as the
multiplicity of a prime ≥ 2 never exceeds `n`). -/
def padVal (p n : ℕ) : ℕ := padValAux p n n

/-- Number of digits after the decimal point in a number's decimal string
form (`x.toString().split('.')[1].length`, src/safe-math.js:402-404).  On
the exact-decimal domain — reduced denominator of the form `2^a * 5^b`,
with magnitude inside the host's positional-notation range
`[10^-6, 10^21)` — the shortest terminating decimal fraction, which is
what the host's `toString` prints, has exactly `max a b` fractional
digits.  Outside that range the host prints exponential form and the
source counts the characters after the dot of that text instead; the
binary64 layer's `fracDigitsFP` below models the printed count where it
matters. -/
def fracLen (q : ℚ) : ℕ := max (padVal 2 q.den) (padVal 5 q.den)

/-- Whether a rational lies in the exact-decimal domain: scaling by
`10 ^ fracLen q` clears its denominator.  Every value a finite double
prints (and hence every number the library's decimal scaling is meant for)
is of this form. -/
def isDecimal (q : ℚ) : Bool := decide (q.den ∣ 10 ^ fracLen q)

/-- Fractional-digit count as `expand` reads it off a coerced operand:
`String(NaN)` contains no decimal point, so a NaN operand counts 0. -/
def fracDigits : Option ℚ → ℕ
  | none => 0
  | some q => fracLen q

/-- The record `expand` returns: the two operands scaled by the common
power-of-ten `exponent` (`none` marks a NaN component). -/
structure Expanded where
  left : Option ℚ
  right : Option ℚ
  exponent : ℚ

/-- Model of `expand` (src/safe-math.js:382-422): coerce both operands,
take the larger fractional-digit count `c` (the ternary `a > b ? a : b`
with `false` coercing to 0 is exactly `max`), scale both operands by
`d = 10 ^ c`, and return them together with `d`. -/
def expand (x y : JSVal) : Expanded :=
  let xv := expandNum x
  let yv := expandNum y
  let c := max (fracDigits xv) (fracDigits yv)
  let d : ℚ := 10 ^ c
  { left := xv.map (fun v => v * d), right := yv.map (fun v => v * d), exponent := d }

/-- Repackage an accumulated number (NaN as `none`) as a value. -/
def jsNumVal : Option ℚ → JSVal
  | some q => .num q
  | none => .nan

/-- One step of `add`'s reduce (src/safe-math.js:34-38):
`(left + right) / exponent`. -/
def addStep (augend : Option ℚ) (addend : JSVal) : Option ℚ :=
  let e := expand (jsNumVal augend) addend
  match e.left, e.right with
  | some l, some r => some ((l + r) / e.exponent)
  | _, _ => none

/-- Model of `add` (src/safe-math.js:33-39): filter the series, fold left
to right from the seed `0`. -/
def add (values : List JSVal) : Option ℚ :=
  (getValues values).foldl addStep (some 0)

/-- One step of `minus`'s reduce (src/safe-math.js:51-55):
`(left - right) / exponent`. -/
def minusStep (minuend subtrahend : JSVal) : JSVal :=
  let e := expand minuend subtrahend
  match e.left, e.right with
  | some l, some r => .num ((l - r) / e.exponent)
  | _, _ => .nan

/-- Model of `minus` (src/safe-math.js:47-56): shift the first filtered
element off as the seed (`undefined` when the filtered series is empty)
and subtract the remaining elements left to right. -/
def minus (values : List JSVal) : JSVal :=
  match getValues values with
  | [] => .undef
  | first :: rest => rest.foldl minusStep first

/-- One step of `multiply`'s reduce (src/safe-math.js:65-69):
`(left * right) / (exponent * exponent)`. -/
def multiplyStep (multiplicand : Option ℚ) (multiplier : JSVal) : Option ℚ :=
  let e := expand (jsNumVal multiplicand) multiplier
  match e.left, e.right with
  | some l, some r => some ((l * r) / (e.exponent * e.exponent))
  | _, _ => none

/-- Model of `multiply` (src/safe-math.js:64-70): filter the series, fold
left to right from the seed `1`. -/
def multiply (values : List JSVal) : Option ℚ :=
  (getValues values).foldl multiplyStep (some 1)

/-- One step of `divide`'s reduce (src/safe-math.js:82-86):
`(left / right) / exponent`.  A zero divisor produces the host's
`±Infinity` (or NaN for `0 / 0`), which lies outside the exact model's
numeric domain and is collapsed to the non-finite marker here (no claim
exercises it). -/
def divideStep (dividend divisor : JSVal) : JSVal :=
  let e := expand dividend divisor
  match e.left, e.right with
  | some l, some r => if r = 0 then .nan else .num ((l / r) / e.exponent)
  | _, _ => .nan

/-- Model of `divide` (src/safe-math.js:78-87): shift the first filtered
element off as the seed (`undefined` when the filtered series is empty)
and divide through the remaining elements left to right. -/
def divide (values : List JSVal) : JSVal :=
  match getValues values with
  | [] => .undef
  | first :: rest => rest.foldl divideStep first

/-- One step of `mean`'s reduce (src/safe-math.js:102-116): probe the next
element with single-argument `expand` (second operand `undefined`); if the
probed `left` is a self-equal number (not NaN), increment the set size and
add, else keep the current sum. -/
def meanStep (p : ℕ × Option ℚ) (next : JSVal) : ℕ × Option ℚ :=
  let e := expand next .undef
  if e.left.isSome then (p.1 + 1, add [jsNumVal p.2, next]) else p

/-- Model of `mean` (src/safe-math.js:99-123): fold with the running set
size (seeded by the number `0`), then divide the sum by the size, or
return the size (`0`) itself when no element qualified. -/
def mean (values : List JSVal) : Option ℚ :=
  let r := (getValues values).foldl meanStep (0, some 0)
  if 0 < r.1 then r.2.map (fun s => s / (r.1 : ℚ)) else some 0

/-- ToPrimitive with number hint, as the relational operators apply it:
objects expose their `valueOf`.  An array's primitive is its comma-join
string; the model compares arrays through their numeric conversion instead
(model boundary: two arrays of numeric strings would compare
lexicographically on the host; no claim sorts arrays). -/
def toPrimitiveNum : JSVal → JSVal
  | .box v => toPrimitiveNum v
  | .objV v => toPrimitiveNum v
  | v => v

/-- The host's `a < b` as the `ascending` comparator uses it: string
comparison when both primitives are strings, numeric comparison otherwise
(any NaN side makes the comparison false). -/
def jsLt (a b : JSVal) : Bool :=
  match toPrimitiveNum a, toPrimitiveNum b with
  | .str s, .str t => decide (s < t)
  | pa, pb =>
    match jsToNumber pa, jsToNumber pb with
    | some x, some y => decide (x < y)
    | _, _ => false

/-- Stable insertion with respect to the comparator: a later element lands
after earlier comparator-equal elements, as in the host's stable sort. -/
def insertAsc (v : JSVal) : List JSVal → List JSVal
  | [] => [v]
  | h :: t => if jsLt v h then v :: h :: t else h :: insertAsc v t

/-- Model of `ascending` (src/safe-math.js:431-443): the host's stable
sort under the comparator `(a, b) => a < b ? -1 : a > b ? 1 : 0`, realised
as stable insertion processed left to right. -/
def ascending (values : List JSVal) : List JSVal :=
  values.foldl (fun acc v => insertAsc v acc) []

/-- Model of `median` (src/safe-math.js:132-146): `0` for an empty
filtered series, else sort and coerce the element at `floor(length / 2)`
with unary `+`. -/
def median (values : List JSVal) : Option ℚ :=
  match getValues values with
  | [] => some 0
  | first :: rest =>
    jsToNumber ((ascending (first :: rest)).getD ((first :: rest).length / 2) .undef)

/-- Model of `Object(value).valueOf()` as the conversion helpers apply it:
wrapper and valueOf-objects expose their wrapped value; `null` and
`undefined` become fresh plain objects (which coerce to NaN); everything
else is its own value. -/
def valueOfJS : JSVal → JSVal
  | .box v => v
  | .objV v => v
  | .null => .objV .undef
  | .undef => .objV .undef
  | v => v

/-- Result of `sqrt`: either the returned Error object (carrying the
offending input that the message interpolates) or the host's `Math.sqrt`
applied to the coerced operand, kept symbolic because its value is
irrational off perfect squares (`none` marks a NaN operand). -/
inductive SqrtResult where
  | errorValue (value : JSVal)
  | sqrtOf (number : Option ℚ)

/-- Whether a `sqrt` result is the error branch. -/
def SqrtResult.isError : SqrtResult → Bool
  | .errorValue _ => true
  | .sqrtOf _ => false

/-- Model of `sqrt` (src/safe-math.js:303-311): an Error value when the
input or its `valueOf` image is non-numeric or the coerced number is
negative (the relational `number < 0` coerces with ToNumber and is false
on NaN); otherwise the native square root. -/
def sqrt (value : JSVal) : SqrtResult :=
  let number := valueOfJS value
  if !(isNumeric value) then .errorValue value
  else if !(isNumeric number) then .errorValue value
  else
    match jsToNumber number with
    | some q => if q < 0 then .errorValue value else .sqrtOf (some q)
    | none => .sqrtOf none

/-- Argument object of `power`; `none` marks a field that is absent from
the object (as opposed to one present with the value `undefined`). -/
structure PowerArgs where
  value : Option JSVal
  exponent : Option JSVal

/-- Result of `power`: `thrown` aborts the caller's control flow;
`original` is the IdentityPassthrough of a non-numeric value; `value` an
exact result; `hostPow` the host's `Math.pow` on a fractional exponent,
kept symbolic because its value is irrational in general. -/
inductive PowerResult where
  | thrown
  | original (v : JSVal)
  | value (q : Option ℚ)
  | hostPow (base ex : Option ℚ)

/-- Modelled from the spec: the `power` operation is absent from
src/safe-math.js (only its test suite imports it), so it is modelled from
§4.5 of the specification.  `power({value, exponent})` generalizes
`square` to arbitrary (including negative and fractional) exponents; a
missing `exponent` field defaults to the identity `value ^ 1`; a missing
`value` field is a caller contract violation that fails loudly, as does a
missing argument object (`power()` aborts on destructuring); a non-numeric
`value` passes through unchanged (§7 IdentityPassthrough).  An integer
exponent yields the exact rational power; a fractional exponent involves
the host's irrational-valued `Math.pow`, outside the exact model, kept
symbolic.  Where the spec is silent — an `exponent` field present but
non-numeric — the test suite's documented behaviour (treat it like a
missing exponent) is followed. -/
def power : Option PowerArgs → PowerResult
  | none => .thrown
  | some a =>
    match a.value with
    | none => .thrown
    | some v =>
      if !(isNumeric v) then .original v
      else
        let xv := expandNum v
        let ev := match a.exponent with
          | none => some (1 : ℚ)
          | some e => if !(isNumeric e) then some 1 else expandNum e
        match ev with
        | some q =>
          if q.den = 1 then .value (xv.map (fun x => x ^ q.num)) else .hostPow xv (some q)
        | none => .value none

/-- Whether a rational is representable with at most `n` significant
digits: an integer mantissa of fewer than `10 ^ n` scaled by a power of
ten. -/
def sigDigitsLe (q : ℚ) (n : ℕ) : Prop :=
  ∃ (m : ℤ) (k : ℕ), q = (m : ℚ) / 10 ^ k ∧ m.natAbs < 10 ^ n

/-- Insertion into a sorted rational list: the image of `insertAsc` on
number-valued elements. -/
def insertQ (v : ℚ) : List ℚ → List ℚ
  | [] => [v]
  | h :: t => if v < h then v :: h :: t else h :: insertQ v t

/-- The comparator sort restricted to rational lists: the image of
`ascending` on number-valued elements. -/
def sortQ (l : List ℚ) : List ℚ :=
  l.foldl (fun acc v => insertQ v acc) []

/-!
Binary64 refinement layer.  The exact-decimal embedding above reads every
host arithmetic operation as exact rational arithmetic; that reading is
faithful only when no double-precision rounding occurs.  The definitions
below model the host's binary64 doubles explicitly — a finite double is
the dyadic rational it denotes, and every operation rounds to nearest,
ties to even, at 53 significand bits — so that claims about decimal
exactness can be settled against the arithmetic the program actually
performs.  The exponent range is unbounded (no overflow, infinity or
subnormal handling: every value evaluated here lies well inside the
normal range).
-/

/-- Floor of the base-2 logarithm of a positive natural, computed with an
accumulator and explicit fuel (`fuel := n` suffices). -/
def natLog2Aux : ℕ → ℕ → ℕ → ℕ
  | 0, _, acc => acc
  | fuel + 1, n, acc => if 2 ≤ n then natLog2Aux fuel (n / 2) (acc + 1) else acc

/-- Floor of the base-2 logarithm of a positive natural. -/
def log2Nat (n : ℕ) : ℕ := natLog2Aux n n 0

/-- Whether `2 ^ z ≤ |a|`, decided by integer cross-multiplication. -/
def ratLe2z (z : ℤ) (a : ℚ) : Bool :=
  if 0 ≤ z then decide ((2 ^ z.toNat) * a.den ≤ a.num.natAbs)
  else decide (a.den ≤ a.num.natAbs * 2 ^ (-z).toNat)

/-- The unique `z` with `2 ^ z ≤ |a| < 2 ^ (z + 1)`, for `a ≠ 0`: the
quotient of the leading bit positions of numerator and denominator,
corrected by direct comparison. -/
def floorLog2 (a : ℚ) : ℤ :=
  let z0 : ℤ := (log2Nat a.num.natAbs : ℤ) - (log2Nat a.den : ℤ)
  if ratLe2z z0 a then (if ratLe2z (z0 + 1) a then z0 + 1 else z0) else z0 - 1

/-- Binary64 rounding: the nearest double (round to nearest, ties to
even, 53 significand bits) of an exact rational.  The significand is
obtained by scaling the magnitude into `[2^52, 2^53)` and rounding the
scaled integer; the comparisons and the final construction stay in
integer arithmetic. -/
def fpRound (q : ℚ) : ℚ :=
  if q.num = 0 then 0
  else
    let n := q.num.natAbs
    let d := q.den
    let e : ℤ := floorLog2 q - 52
    let bigN : ℕ := if 0 ≤ e then n else n * 2 ^ (-e).toNat
    let bigD : ℕ := if 0 ≤ e then d * 2 ^ e.toNat else d
    let n0 : ℕ := bigN / bigD
    let rem : ℕ := bigN % bigD
    let n1 : ℕ :=
      if bigD < 2 * rem then n0 + 1
      else if 2 * rem < bigD then n0
      else if n0 % 2 = 0 then n0 else n0 + 1
    let m : ℤ := if q.num < 0 then -(Int.ofNat n1) else Int.ofNat n1
    if 0 ≤ e then Rat.ofInt (m * Int.ofNat (2 ^ e.toNat))
    else mkRat m (2 ^ (-e).toNat)

/-- The host's `+` on finite doubles: correctly rounded exact sum. -/
def fpAdd (x y : ℚ) : ℚ := fpRound (x + y)

/-- The host's `*` on finite doubles: correctly rounded exact product. -/
def fpMul (x y : ℚ) : ℚ := fpRound (x * y)

/-- The host's `/` on finite doubles: correctly rounded exact quotient. -/
def fpDiv (x y : ℚ) : ℚ := fpRound (x / y)

/-- Floor of a rational as an integer. -/
def ratFloor (q : ℚ) : ℤ := Int.fdiv q.num (q.den : ℤ)

/-- The nearest decimal with `k` fractional digits to `v` (the candidate
the shortest-round-trip printing algorithm tests; the half-way tie, which
never occurs at the points this development evaluates, rounds up). -/
def decApprox (v : ℚ) (k : ℕ) : ℚ :=
  mkRat (ratFloor (v * Rat.ofInt (Int.ofNat (10 ^ k)) + mkRat 1 2)) (10 ^ k)

/-- Rational equality through the normalized representation. -/
def ratEq (a b : ℚ) : Bool := a.num == b.num && a.den == b.den

/-- Search for the least fractional-digit count whose nearest decimal
round-trips to the double `v` (17 digits always suffice for binary64, so
`fuel := 18` never runs out). -/
def fracDigitsFPAux (v : ℚ) : ℕ → ℕ → ℕ
  | 0, k => k
  | fuel + 1, k => if ratEq (fpRound (decApprox v k)) v then k else fracDigitsFPAux v fuel (k + 1)

/-- Fractional-digit count of a double's `toString`: the ECMAScript
shortest decimal that round-trips to `v`.  For `|v| < 10^-6` the host
prints exponential form, whose text has no decimal point when the mantissa
is a single digit — the branch returns `0` accordingly (a mantissa with
its own fraction, e.g. `1.5e-7`, would make the source count the characters
after the dot; outside the model, never evaluated); doubles of magnitude
at least `10^21` are integers, found at `k = 0` by the search. -/
def fracDigitsFP (v : ℚ) : ℕ :=
  if v.num.natAbs * 1000000 < v.den then 0 else fracDigitsFPAux v 18 0

/-- The record `expand` returns, at the binary64 level: both operands
scaled by the power-of-ten exponent with the host's rounding
multiplication. -/
structure ExpandedFP where
  left : ℚ
  right : ℚ
  exponent : ℚ

/-- Binary64 refinement of `expand` (src/safe-math.js:382-422) on number
operands: the fractional-digit counts come from the doubles' printed
forms, and the scaling multiplications round like the host's `*`.
(`Math.pow(10, c)` is exact in binary64 for every digit count that can
arise, so the exponent itself needs no rounding.) -/
def expandFP (x y : ℚ) : ExpandedFP :=
  let d : ℚ := 10 ^ max (fracDigitsFP x) (fracDigitsFP y)
  ⟨fpMul x d, fpMul y d, d⟩

/-- Binary64 refinement of `add`'s reduce step (src/safe-math.js:34-38):
`(left + right) / exponent` with the host's rounding addition and
division. -/
def addStepFP (augend addend : ℚ) : ℚ :=
  let e := expandFP augend addend
  fpDiv (fpAdd e.left e.right) e.exponent

/-- Binary64 refinement of `add` on an all-number series (`getValues`
keeps every number, so the filter is the identity): fold from the seed
`0`. -/
def addFP (values : List ℚ) : ℚ :=
  values.foldl addStepFP 0

/-! Helper lemmas about the embedding. -/

theorem expandNum_num (q : ℚ) : expandNum (.num q) = some q := rfl

theorem isNumeric_num (q : ℚ) : isNumeric (.num q) = true := rfl

theorem pow_ten_ne_zero (c : ℕ) : ((10 : ℚ) ^ c) ≠ 0 :=
  pow_ne_zero c (by norm_num)

/-- A rational whose denominator divides `10 ^ c` becomes an integer after
scaling by `10 ^ c`. -/
theorem mul_pow_den_int (q : ℚ) (c : ℕ) (h : q.den ∣ 10 ^ c) :
    ∃ z : ℤ, q * (10 : ℚ) ^ c = (z : ℚ) := by
  obtain ⟨k, hk⟩ := h
  refine ⟨q.num * (k : ℤ), ?_⟩
  have hden : ((q.den : ℚ)) ≠ 0 := Nat.cast_ne_zero.mpr q.den_ne_zero
  have h10 : ((10 : ℚ) ^ c) = ((q.den : ℚ)) * (k : ℚ) := by exact_mod_cast hk
  have key : q * (q.den : ℚ) = (q.num : ℚ) := by
    nth_rewrite 1 [← Rat.num_div_den q]
    exact div_mul_cancel₀ _ hden
  calc q * (10 : ℚ) ^ c = (q * (q.den : ℚ)) * (k : ℚ) := by rw [h10]; ring
    _ = (q.num : ℚ) * (k : ℚ) := by rw [key]
    _ = ((q.num * (k : ℤ) : ℤ) : ℚ) := by push_cast; ring

/-- The scaled components `expand` produces for a pair of numbers. -/
theorem expand_num_num (x y : ℚ) :
    expand (.num x) (.num y) =
      { left := some (x * 10 ^ max (fracLen x) (fracLen y)),
        right := some (y * 10 ^ max (fracLen x) (fracLen y)),
        exponent := 10 ^ max (fracLen x) (fracLen y) } := rfl

/-- One `add` step on a number accumulator and an operand that coerces to
a number is exact addition. -/
theorem addStep_some (s : ℚ) (v : JSVal) (t : ℚ) (h : expandNum v = some t) :
    addStep (some s) v = some (s + t) := by
  have hd := pow_ten_ne_zero (max (fracLen s) (fracDigits (some t)))
  simp only [addStep, expand, jsNumVal, expandNum_num, h, Option.map_some']
  congr 1
  field_simp
  ring

/-- One `multiply` step on a number accumulator and an operand that
coerces to a number is exact multiplication. -/
theorem multiplyStep_some (s : ℚ) (v : JSVal) (t : ℚ) (h : expandNum v = some t) :
    multiplyStep (some s) v = some (s * t) := by
  have hd := pow_ten_ne_zero (max (fracLen s) (fracDigits (some t)))
  simp only [multiplyStep, expand, jsNumVal, expandNum_num, h, Option.map_some']
  congr 1
  field_simp
  ring

/-! Claim theorems. -/

/-- C1: evaluation of the three canonical binary-mismatch cases on the
code as written.  `add(0.1, 0.2)` is exactly `0.3` and
`multiply(0.1, 0.1)` exactly `0.01`, but `divide(0.15, 10)` returns
`0.00015`, not the decimal-exact quotient `0.015`: the quotient step
computes `(left / right) / exponent`, and since `left / right` already
equals `dividend / divisor`, the result is divided by the scaling exponent
once too many. -/
theorem c1_canonical_cases_eval :
    add [.num (1/10), .num (2/10)] = some (3/10)
    ∧ multiply [.num (1/10), .num (1/10)] = some (1/100)
    ∧ divide [.num (3/20), .num 10] = .num (3/20000)
    ∧ (3/20000 : ℚ) ≠ 3/200 := by
  refine ⟨?_, ?_, ?_, ?_⟩
  · with_unfolding_all decide
  · with_unfolding_all decide
  · with_unfolding_all rfl
  · norm_num

set_option maxRecDepth 4000

/-- C2 counterexample: inside the claim's own hypotheses the binary64
evaluation of the fold misses the exact decimal sum.  For the doubles the
literals `1.005` and `0.005` denote — decimals of at most 4 significant
digits whose exact decimal sum `1.01` is again a decimal — the program's
fold (`(0.005 * 1000` rounds to `5`, but `1.005 * 1000` rounds to
`1004.9999999999999`) returns the double one ulp below `1.01`, the
host-verified `1.0099999999999998`, not the double `1.01` denotes. -/
theorem c2_counterexample :
    sigDigitsLe (1005/1000) 15 ∧ sigDigitsLe (5/1000) 15
    ∧ isDecimal ((1005:ℚ)/1000 + 5/1000) = true
    ∧ addFP [fpRound (1005/1000), fpRound (5/1000)] ≠ fpRound ((1005:ℚ)/1000 + 5/1000) := by
  refine ⟨⟨1005, 3, by norm_num, by norm_num⟩, ⟨5, 3, by norm_num, by norm_num⟩,
    by with_unfolding_all decide, fun h => absurd (congrArg Rat.num h) ?_⟩
  with_unfolding_all decide

/-- C2 (amended): the scaled fold returns the exact decimal sum precisely
when its binary64 steps are exact: for decimals `A`, `B` of at most 15
significant digits with an exact decimal sum, if the seeding step returns
the first double unchanged, both doubles print with their literals'
fractional-digit counts, the two scaling multiplications recover the
exact scaled decimal integers, and the scaled addition is exact, then the
program's fold returns exactly the double of the exact decimal sum
`A + B`.  Without those conditions the host can be off by an ulp
(`c2_counterexample`). -/
theorem c2_add_exact_unrounded (A B : ℚ) (hA : sigDigitsLe A 15) (hB : sigDigitsLe B 15)
    (hAB : isDecimal (A + B) = true)
    (h1 : addStepFP 0 (fpRound A) = fpRound A)
    (hda : fracDigitsFP (fpRound A) = fracLen A)
    (hdb : fracDigitsFP (fpRound B) = fracLen B)
    (hma : fpMul (fpRound A) (10 ^ max (fracLen A) (fracLen B))
        = A * 10 ^ max (fracLen A) (fracLen B))
    (hmb : fpMul (fpRound B) (10 ^ max (fracLen A) (fracLen B))
        = B * 10 ^ max (fracLen A) (fracLen B))
    (hsum : fpAdd (A * 10 ^ max (fracLen A) (fracLen B)) (B * 10 ^ max (fracLen A) (fracLen B))
        = A * 10 ^ max (fracLen A) (fracLen B) + B * 10 ^ max (fracLen A) (fracLen B)) :
    addFP [fpRound A, fpRound B] = fpRound (A + B) := by
  have hstep : addFP [fpRound A, fpRound B] = addStepFP (fpRound A) (fpRound B) := by
    simp only [addFP, List.foldl_cons, List.foldl_nil, h1]
  rw [hstep]
  simp only [addStepFP, expandFP, hda, hdb, hma, hmb, hsum, fpDiv]
  congr 1
  have hd : ((10:ℚ) ^ max (fracLen A) (fracLen B)) ≠ 0 := pow_ten_ne_zero _
  field_simp
  ring

/-- C2 witness at `0.1 + 0.2`: the canonical case satisfies every
exactness condition, so the program returns exactly the double `0.3`
denotes. -/
theorem c2_add_exact_unrounded_witness :
    sigDigitsLe (1/10) 15 ∧ sigDigitsLe (2/10) 15
    ∧ isDecimal ((1:ℚ)/10 + 2/10) = true
    ∧ addStepFP 0 (fpRound (1/10)) = fpRound (1/10)
    ∧ fracDigitsFP (fpRound (1/10)) = fracLen (1/10)
    ∧ fpMul (fpRound (1/10)) (10 ^ max (fracLen (1/10)) (fracLen (2/10)))
        = (1:ℚ)/10 * 10 ^ max (fracLen (1/10)) (fracLen (2/10))
    ∧ addFP [fpRound (1/10), fpRound (2/10)] = fpRound ((1:ℚ)/10 + 2/10) := by
  have hA : sigDigitsLe (1/10) 15 := ⟨1, 1, by norm_num, by norm_num⟩
  have hB : sigDigitsLe (2/10) 15 := ⟨2, 1, by norm_num, by norm_num⟩
  have hAB : isDecimal ((1:ℚ)/10 + 2/10) = true := by with_unfolding_all decide
  have h1 : addStepFP 0 (fpRound (1/10)) = fpRound (1/10) :=
    Rat.ext (by with_unfolding_all decide) (by with_unfolding_all decide)
  have hda : fracDigitsFP (fpRound (1/10)) = fracLen (1/10) := by with_unfolding_all decide
  have hdb : fracDigitsFP (fpRound (2/10)) = fracLen (2/10) := by with_unfolding_all decide
  have hma : fpMul (fpRound (1/10)) (10 ^ max (fracLen (1/10)) (fracLen (2/10)))
      = (1:ℚ)/10 * 10 ^ max (fracLen (1/10)) (fracLen (2/10)) :=
    Rat.ext (by with_unfolding_all decide) (by with_unfolding_all decide)
  have hmb : fpMul (fpRound (2/10)) (10 ^ max (fracLen (1/10)) (fracLen (2/10)))
      = (2:ℚ)/10 * 10 ^ max (fracLen (1/10)) (fracLen (2/10)) :=
    Rat.ext (by with_unfolding_all decide) (by with_unfolding_all decide)
  have hsum : fpAdd ((1:ℚ)/10 * 10 ^ max (fracLen (1/10)) (fracLen (2/10)))
        ((2:ℚ)/10 * 10 ^ max (fracLen (1/10)) (fracLen (2/10)))
      = (1:ℚ)/10 * 10 ^ max (fracLen (1/10)) (fracLen (2/10))
        + (2:ℚ)/10 * 10 ^ max (fracLen (1/10)) (fracLen (2/10)) :=
    Rat.ext (by with_unfolding_all decide) (by with_unfolding_all decide)
  exact ⟨hA, hB, hAB, h1, hda,
    hma, c2_add_exact_unrounded (1/10) (2/10) hA hB hAB h1 hda hdb hma hmb hsum⟩

/-- C3 counterexample: the host's scaling multiplication is not exact, so
a scaled component need not be an exact integer.  For the doubles the
literals `0.07` and `0.01` denote, both print with 2 fractional digits and
the exponent is `100` as the invariant says, but the left component
`fpRound(0.07 * 100)` is `7 + 2 ^ -50` — the host-verified
`7.000000000000001` — which is not the intended integer `7` and, having
denominator `2 ^ 50`, is not an exact integer at all. -/
theorem c3_counterexample :
    isDecimal (7/100) = true ∧ isDecimal (1/100) = true
    ∧ fracDigitsFP (fpRound (7/100)) = 2 ∧ fracDigitsFP (fpRound (1/100)) = 2
    ∧ (expandFP (fpRound (7/100)) (fpRound (1/100))).exponent = 100
    ∧ (expandFP (fpRound (7/100)) (fpRound (1/100))).left ≠ 7
    ∧ ((expandFP (fpRound (7/100)) (fpRound (1/100))).left).den ≠ 1 := by
  refine ⟨by with_unfolding_all decide, by with_unfolding_all decide,
    by with_unfolding_all decide, by with_unfolding_all decide,
    Rat.ext (by with_unfolding_all decide) (by with_unfolding_all decide),
    fun h => absurd (congrArg Rat.num h) ?_, by with_unfolding_all decide⟩
  with_unfolding_all decide

/-- C3 (amended): at the binary64 level, `expand`'s exponent is
`10 ^ max(fracDigits x, fracDigits y)` — a power of ten, at least `1`, and
exactly `1` when neither operand has a fractional part — and each scaled
component is the host's rounded product `fpRound (operand * exponent)`.
The components are exact integers equal to `decimal * exponent` whenever
the scaling multiplications incur no rounding (the exact-decimal reading);
the host does not guarantee that (`c3_counterexample`). -/
theorem c3_expand_unrounded (x y X Y : ℚ)
    (hdx : fracDigitsFP x = fracLen X) (hdy : fracDigitsFP y = fracLen Y)
    (hX : isDecimal X = true) (hY : isDecimal Y = true)
    (hmx : fpMul x (10 ^ max (fracLen X) (fracLen Y)) = X * 10 ^ max (fracLen X) (fracLen Y))
    (hmy : fpMul y (10 ^ max (fracLen X) (fracLen Y)) = Y * 10 ^ max (fracLen X) (fracLen Y)) :
    (expandFP x y).exponent = 10 ^ max (fracDigitsFP x) (fracDigitsFP y)
    ∧ 1 ≤ (expandFP x y).exponent
    ∧ (fracDigitsFP x = 0 → fracDigitsFP y = 0 → (expandFP x y).exponent = 1)
    ∧ (expandFP x y).left = fpRound (x * (expandFP x y).exponent)
    ∧ (expandFP x y).right = fpRound (y * (expandFP x y).exponent)
    ∧ (expandFP x y).left = X * 10 ^ max (fracLen X) (fracLen Y)
    ∧ (expandFP x y).right = Y * 10 ^ max (fracLen X) (fracLen Y)
    ∧ (∃ zl : ℤ, (expandFP x y).left = (zl : ℚ))
    ∧ (∃ zr : ℤ, (expandFP x y).right = (zr : ℚ)) := by
  have hdvX : X.den ∣ 10 ^ max (fracLen X) (fracLen Y) :=
    (of_decide_eq_true hX).trans (pow_dvd_pow 10 (le_max_left _ _))
  have hdvY : Y.den ∣ 10 ^ max (fracLen X) (fracLen Y) :=
    (of_decide_eq_true hY).trans (pow_dvd_pow 10 (le_max_right _ _))
  have hleft : (expandFP x y).left = X * 10 ^ max (fracLen X) (fracLen Y) := by
    show fpMul x (10 ^ max (fracDigitsFP x) (fracDigitsFP y)) = _
    rw [hdx, hdy, hmx]
  have hright : (expandFP x y).right = Y * 10 ^ max (fracLen X) (fracLen Y) := by
    show fpMul y (10 ^ max (fracDigitsFP x) (fracDigitsFP y)) = _
    rw [hdx, hdy, hmy]
  refine ⟨rfl, one_le_pow₀ (by norm_num), ?_, rfl, rfl, hleft, hright, ?_, ?_⟩
  · intro h0 h1
    show (10:ℚ) ^ max (fracDigitsFP x) (fracDigitsFP y) = 1
    simp [h0, h1]
  · rw [hleft]
    exact mul_pow_den_int X _ hdvX
  · rw [hright]
    exact mul_pow_den_int Y _ hdvY

/-- C3 witness at the documentation's own example pair `1.23`, `1.234`,
where the host's scalings to `1230` and `1234` happen to be exact. -/
theorem c3_expand_unrounded_witness :
    fracDigitsFP (fpRound (123/100)) = fracLen (123/100)
    ∧ isDecimal (123/100) = true
    ∧ fpMul (fpRound (123/100)) (10 ^ max (fracLen (123/100)) (fracLen (1234/1000)))
        = (123:ℚ)/100 * 10 ^ max (fracLen (123/100)) (fracLen (1234/1000))
    ∧ (expandFP (fpRound (123/100)) (fpRound (1234/1000))).exponent
        = 10 ^ max (fracDigitsFP (fpRound (123/100))) (fracDigitsFP (fpRound (1234/1000)))
    ∧ (∃ zl : ℤ, (expandFP (fpRound (123/100)) (fpRound (1234/1000))).left = (zl : ℚ)) := by
  have hdx : fracDigitsFP (fpRound (123/100)) = fracLen (123/100) := by
    with_unfolding_all decide
  have hdy : fracDigitsFP (fpRound (1234/1000)) = fracLen (1234/1000) := by
    with_unfolding_all decide
  have hX : isDecimal (123/100) = true := by with_unfolding_all decide
  have hY : isDecimal (1234/1000) = true := by with_unfolding_all decide
  have hmx : fpMul (fpRound (123/100)) (10 ^ max (fracLen (123/100)) (fracLen (1234/1000)))
      = (123:ℚ)/100 * 10 ^ max (fracLen (123/100)) (fracLen (1234/1000)) :=
    Rat.ext (by with_unfolding_all decide) (by with_unfolding_all decide)
  have hmy : fpMul (fpRound (1234/1000)) (10 ^ max (fracLen (123/100)) (fracLen (1234/1000)))
      = (1234:ℚ)/1000 * 10 ^ max (fracLen (123/100)) (fracLen (1234/1000)) :=
    Rat.ext (by with_unfolding_all decide) (by with_unfolding_all decide)
  have h := c3_expand_unrounded (fpRound (123/100)) (fpRound (1234/1000))
    (123/100) (1234/1000) hdx hdy hX hY hmx hmy
  exact ⟨hdx, hX, hmx, h.1, h.2.2.2.2.2.2.2.1⟩

/-- C4 counterexample: on an empty filtered series, `minus` and `divide`
return `undefined` — the shift of an empty array — which is neither the
numeric identity `0` nor `1`, so the claim's "return the fixed identity"
fails as stated. -/
theorem c4_empty_series_counterexample :
    minus [] = .undef ∧ divide [] = .undef
    ∧ JSVal.undef ≠ .num 0 ∧ JSVal.undef ≠ .num 1 :=
  ⟨rfl, rfl, by simp, by simp⟩

/-- C4 (amended): `minus` and `divide` seed their fold with the first
filtered element and combine the remaining elements strictly left to
right, so `minus(1, 2, 3) = -4` (not a reassociated `2`); on a series
whose filtered form is empty they return `undefined` (the shift of an
empty array), not a numeric identity. -/
theorem c4_seeded_fold (values : List JSVal) (first : JSVal) (rest : List JSVal)
    (h : getValues values = first :: rest) :
    minus values = rest.foldl minusStep first
    ∧ divide values = rest.foldl divideStep first
    ∧ minus [.num 1, .num 2, .num 3] = .num (-4)
    ∧ minus [.num 1, .num 2, .num 3] ≠ .num 2
    ∧ minus [] = .undef ∧ divide [] = .undef := by
  refine ⟨by simp [minus, h], by simp [divide, h], by with_unfolding_all rfl, ?_, rfl, rfl⟩
  have hv : minus [.num 1, .num 2, .num 3] = .num (-4) := by with_unfolding_all rfl
  rw [hv]
  intro hc
  have : (-4 : ℚ) = 2 := by injection hc
  norm_num at this

/-- C4 witness at `minus(1, 2, 3)`. -/
theorem c4_seeded_fold_witness :
    getValues [.num 1, .num 2, .num 3] = .num 1 :: [.num 2, .num 3]
    ∧ minus [.num 1, .num 2, .num 3] = [JSVal.num 2, .num 3].foldl minusStep (.num 1) :=
  ⟨rfl, (c4_seeded_fold [.num 1, .num 2, .num 3] (.num 1) [.num 2, .num 3] rfl).1⟩

/-- C5: every series operation goes through `getValues`, which takes a
leading array argument as the whole series and otherwise uses the
positional arguments, then drops non-numeric members in place (a sublist,
so relative order is preserved); in particular
`add(NaN, 1, null, 2, undefined, 3, "", 4) = 10`. -/
theorem c5_getValues_filter :
    (∀ (l rest : List JSVal), getValues (.arr l :: rest) = l.filter isNumeric)
    ∧ (∀ (v : JSVal) (values : List JSVal), (∀ l, v ≠ .arr l) →
        getValues (v :: values) = (v :: values).filter isNumeric)
    ∧ getValues [] = []
    ∧ (∀ (l rest : List JSVal), List.Sublist (getValues (.arr l :: rest)) l)
    ∧ (∀ (v : JSVal) (values : List JSVal), (∀ l, v ≠ .arr l) →
        List.Sublist (getValues (v :: values)) (v :: values))
    ∧ add [.nan, .num 1, .null, .num 2, .undef, .num 3, .str "", .num 4] = some 10 := by
  have h1 : ∀ (l rest : List JSVal), getValues (.arr l :: rest) = l.filter isNumeric :=
    fun l rest => rfl
  have h2 : ∀ (v : JSVal) (values : List JSVal), (∀ l, v ≠ .arr l) →
      getValues (v :: values) = (v :: values).filter isNumeric := by
    intro v values hv
    cases v with
    | arr l => exact absurd rfl (hv l)
    | _ => rfl
  refine ⟨h1, h2, rfl, ?_, ?_, by with_unfolding_all decide⟩
  · intro l rest
    rw [h1]
    exact List.filter_sublist l
  · intro v values hv
    rw [h2 v values hv]
    exact List.filter_sublist _

/-- C5 witness: the positional branch applied to the spec's own series. -/
theorem c5_getValues_filter_witness :
    getValues [.nan, .num 1, .null, .num 2, .undef, .num 3, .str "", .num 4]
      = [JSVal.nan, .num 1, .null, .num 2, .undef, .num 3, .str "", .num 4].filter isNumeric :=
  c5_getValues_filter.2.1 .nan [.num 1, .null, .num 2, .undef, .num 3, .str "", .num 4]
    (fun l => by simp)

/-- C10: when the filtered series has exactly one element, `minus` and
`divide` return that element itself, with no numeric coercion: the reduce
over the empty remainder returns the shifted seed unchanged, so
`minus("1,000")` is the string `"1,000"`, not the number `1000`. -/
theorem c10_single_element (values : List JSVal) (first : JSVal)
    (h : getValues values = [first]) :
    minus values = first ∧ divide values = first
    ∧ minus [.str "1,000"] = .str "1,000"
    ∧ divide [.str "1,000"] = .str "1,000"
    ∧ JSVal.str "1,000" ≠ .num 1000 :=
  ⟨by simp [minus, h], by simp [divide, h], rfl, rfl, by simp⟩

/-- C10 witness at the numeric string `"1,000"`. -/
theorem c10_single_element_witness :
    getValues [.str "1,000"] = [JSVal.str "1,000"]
    ∧ minus [.str "1,000"] = .str "1,000" :=
  ⟨rfl, (c10_single_element [.str "1,000"] (.str "1,000") rfl).1⟩

/-- Members of a filtered series are numeric. -/
theorem mem_getValues_isNumeric (values : List JSVal) (v : JSVal)
    (hv : v ∈ getValues values) : isNumeric v = true := by
  unfold getValues at hv
  exact List.of_mem_filter hv

/-- The nested `add(current, next)` call inside `mean` adds exactly when
`next` is a numeric member that coerces to a number. -/
theorem add_pair (s : ℚ) (v : JSVal) (t : ℚ) (hn : isNumeric v = true)
    (ht : expandNum v = some t) :
    add [.num s, v] = some (s + t) := by
  have hg : getValues [.num s, v] = [.num s, v] := by
    simp [getValues, List.filter, hn, isNumeric_num]
  have h1 : addStep (some 0) (.num s) = some s := by
    simpa using addStep_some 0 (.num s) s rfl
  have h2 : addStep (some s) v = some (s + t) := addStep_some s v t ht
  simp only [add, hg, List.foldl_cons, List.foldl_nil, h1, h2]

/-- A `mean` step skips an element whose single-argument probe is NaN. -/
theorem meanStep_none (p : ℕ × Option ℚ) (next : JSVal) (h : expandNum next = none) :
    meanStep p next = p := by
  simp [meanStep, expand, h]

/-- A `mean` step on an element that coerces to a number increments the
size and adds. -/
theorem meanStep_some (p : ℕ × Option ℚ) (next : JSVal) (t : ℚ) (h : expandNum next = some t) :
    meanStep p next = (p.1 + 1, add [jsNumVal p.2, next]) := by
  simp [meanStep, expand, h]

/-- Invariant of `mean`'s fold: the state is the count and exact sum of
the elements seen so far whose coercion is a number. -/
theorem mean_fold (l : List JSVal) (hl : ∀ v ∈ l, isNumeric v = true) (n : ℕ) (s : ℚ) :
    l.foldl meanStep (n, some s)
      = (n + (l.filterMap expandNum).length, some (s + (l.filterMap expandNum).sum)) := by
  induction l generalizing n s with
  | nil => simp
  | cons v t ih =>
    have hv : isNumeric v = true := hl v (List.mem_cons_self v t)
    have ht : ∀ w ∈ t, isNumeric w = true := fun w hw => hl w (List.mem_cons_of_mem v hw)
    cases hev : expandNum v with
    | none =>
      rw [List.foldl_cons, meanStep_none _ _ hev, ih ht]
      simp [List.filterMap_cons, hev]
    | some q =>
      rw [List.foldl_cons, meanStep_some _ _ q hev]
      have hadd : add [jsNumVal (n, some s).2, v] = some (s + q) := add_pair s v q hv hev
      rw [hadd, ih ht]
      simp only [List.filterMap_cons, hev, List.length_cons, List.sum_cons]
      refine Prod.ext ?_ ?_
      · simp
        omega
      · simp
        ring

/-- C6: `mean` returns the exact sum of the qualifying elements (those
whose accumulation-time probe is a self-equal number) divided by their
count, and returns `0` — not NaN — when the count is `0`; in particular
`mean()` is `0`. -/
theorem c6_mean (values : List JSVal) :
    mean values
      = some (if ((getValues values).filterMap expandNum).length = 0 then 0
              else ((getValues values).filterMap expandNum).sum
                    / (((getValues values).filterMap expandNum).length : ℚ))
    ∧ mean [] = some 0 := by
  constructor
  · show (if 0 < ((getValues values).foldl meanStep (0, some 0)).1
           then ((getValues values).foldl meanStep (0, some 0)).2.map
                  (fun s => s / (((getValues values).foldl meanStep (0, some 0)).1 : ℚ))
           else some 0) = _
    rw [mean_fold (getValues values) (fun v hv => mem_getValues_isNumeric values v hv) 0 0]
    by_cases h0 : ((getValues values).filterMap expandNum).length = 0
    · simp [h0]
    · have hpos : 0 < 0 + ((getValues values).filterMap expandNum).length := by omega
      simp [h0, hpos]
  · rfl

/-- The `ascending` comparator on two numbers is the rational order. -/
theorem jsLt_num (a b : ℚ) : jsLt (.num a) (.num b) = decide (a < b) := rfl

/-- Inserting keeps the list a permutation of the element plus the rest. -/
theorem insertQ_perm (v : ℚ) (l : List ℚ) : List.Perm (insertQ v l) (v :: l) := by
  induction l with
  | nil => exact List.Perm.refl _
  | cons h t ih =>
    rw [insertQ]
    by_cases hv : v < h
    · rw [if_pos hv]
    · rw [if_neg hv]
      exact (ih.cons h).trans (List.Perm.swap v h t)

/-- Inserting preserves sortedness. -/
theorem insertQ_sorted (v : ℚ) (l : List ℚ) (h : l.Sorted (· ≤ ·)) :
    (insertQ v l).Sorted (· ≤ ·) := by
  induction l with
  | nil => simp [insertQ]
  | cons a t ih =>
    rw [insertQ]
    rcases List.sorted_cons.mp h with ⟨ha, hts⟩
    by_cases hv : v < a
    · rw [if_pos hv]
      refine List.sorted_cons.mpr ⟨?_, h⟩
      intro b hb
      rcases List.mem_cons.mp hb with hb | hb
      · subst hb
        exact le_of_lt hv
      · exact (le_of_lt hv).trans (ha b hb)
    · rw [if_neg hv]
      push_neg at hv
      refine List.sorted_cons.mpr ⟨?_, ih hts⟩
      intro b hb
      rcases List.mem_cons.mp ((insertQ_perm v t).mem_iff.mp hb) with hb | hb
      · subst hb
        exact hv
      · exact ha b hb

/-- The insertion fold permutes its input onto its accumulator. -/
theorem sortFold_perm (l : List ℚ) : ∀ acc : List ℚ,
    List.Perm (l.foldl (fun a v => insertQ v a) acc) (l ++ acc) := by
  induction l with
  | nil => intro acc; simp
  | cons v t ih =>
    intro acc
    rw [List.foldl_cons]
    refine (ih (insertQ v acc)).trans ?_
    refine (List.Perm.append_left t (insertQ_perm v acc)).trans ?_
    exact List.perm_middle

/-- The insertion fold preserves sortedness of the accumulator. -/
theorem sortFold_sorted (l : List ℚ) : ∀ acc : List ℚ, acc.Sorted (· ≤ ·) →
    (l.foldl (fun a v => insertQ v a) acc).Sorted (· ≤ ·) := by
  induction l with
  | nil => intro acc hacc; exact hacc
  | cons v t ih => intro acc hacc; exact ih _ (insertQ_sorted v acc hacc)

theorem sortQ_sorted (l : List ℚ) : (sortQ l).Sorted (· ≤ ·) :=
  sortFold_sorted l [] List.sorted_nil

theorem sortQ_perm (l : List ℚ) : List.Perm (sortQ l) l := by
  simpa using sortFold_perm l []

/-- On number-valued elements, `insertAsc` is `insertQ`. -/
theorem insertAsc_map (v : ℚ) (l : List ℚ) :
    insertAsc (.num v) (l.map JSVal.num) = (insertQ v l).map JSVal.num := by
  induction l with
  | nil => rfl
  | cons h t ih =>
    simp only [List.map_cons, insertAsc, insertQ, jsLt_num]
    by_cases hv : v < h
    · simp [hv]
    · simp [hv, ih]

/-- On number-valued elements, the `ascending` fold is the `sortQ` fold. -/
theorem ascFold_map (l : List ℚ) : ∀ acc : List ℚ,
    (l.map JSVal.num).foldl (fun acc v => insertAsc v acc) (acc.map JSVal.num)
      = (l.foldl (fun a v => insertQ v a) acc).map JSVal.num := by
  induction l with
  | nil => intro acc; rfl
  | cons v t ih =>
    intro acc
    rw [List.map_cons, List.foldl_cons, List.foldl_cons, insertAsc_map]
    exact ih (insertQ v acc)

/-- On number-valued series, `ascending` sorts by the rational order. -/
theorem ascending_map (l : List ℚ) :
    ascending (l.map JSVal.num) = (sortQ l).map JSVal.num := by
  have h := ascFold_map l []
  simpa [ascending, sortQ] using h

/-- C7: `median` filters the series, sorts it ascending (on number
elements the comparator sort is a ≤-sorted permutation of the input), and
returns the element at index `floor(length / 2)` coerced to a number; for
an even-length series that is the upper-middle element with no
interpolation, so `median([9, 1, 6, 3, 7, 4]) = 6`. -/
theorem c7_median (values : List JSVal) (first : JSVal) (rest : List JSVal)
    (h : getValues values = first :: rest) :
    median values
      = jsToNumber ((ascending (first :: rest)).getD ((first :: rest).length / 2) .undef)
    ∧ (∀ values2 : List JSVal, getValues values2 = [] → median values2 = some 0)
    ∧ (∀ l : List ℚ, ascending (l.map JSVal.num) = (sortQ l).map JSVal.num
        ∧ (sortQ l).Sorted (· ≤ ·) ∧ List.Perm (sortQ l) l)
    ∧ median [.arr [.num 9, .num 1, .num 6, .num 3, .num 7, .num 4]] = some 6 := by
  refine ⟨by simp [median, h], ?_, ?_, by with_unfolding_all decide⟩
  · intro values2 h2
    simp [median, h2]
  · intro l
    exact ⟨ascending_map l, sortQ_sorted l, sortQ_perm l⟩

/-- C7 witness at the spec's even-length series. -/
theorem c7_median_witness :
    getValues [.arr [.num 9, .num 1, .num 6, .num 3, .num 7, .num 4]]
      = .num 9 :: [.num 1, .num 6, .num 3, .num 7, .num 4]
    ∧ median [.arr [.num 9, .num 1, .num 6, .num 3, .num 7, .num 4]]
      = jsToNumber ((ascending (.num 9 :: [.num 1, .num 6, .num 3, .num 7, .num 4])).getD
          ((JSVal.num 9 :: [.num 1, .num 6, .num 3, .num 7, .num 4]).length / 2) .undef) :=
  ⟨rfl, (c7_median [.arr [.num 9, .num 1, .num 6, .num 3, .num 7, .num 4]]
      (.num 9) [.num 1, .num 6, .num 3, .num 7, .num 4] rfl).1⟩

/-- C8: `sqrt` returns an Error value — not a thrown exception — exactly
when the input or its `valueOf` image is non-numeric or the coerced number
is negative; otherwise it returns the native square root of the coerced
number.  In particular `sqrt(-1)` is error-typed, and `sqrt(0)` is the
native root of `0`, which is `0`. -/
theorem c8_sqrt (v : JSVal) :
    ((sqrt v).isError = true ↔
      (isNumeric v = false ∨ isNumeric (valueOfJS v) = false
        ∨ ∃ q, jsToNumber (valueOfJS v) = some q ∧ q < 0))
    ∧ (isNumeric v = true → isNumeric (valueOfJS v) = true →
        ∀ q, jsToNumber (valueOfJS v) = some q → ¬(q < 0) → sqrt v = .sqrtOf (some q))
    ∧ sqrt (.num (-1)) = .errorValue (.num (-1))
    ∧ sqrt (.num 0) = .sqrtOf (some 0)
    ∧ Real.sqrt 0 = 0 := by
  refine ⟨?_, ?_, by with_unfolding_all rfl, by with_unfolding_all rfl, Real.sqrt_zero⟩
  · by_cases h1 : isNumeric v = true
    · by_cases h2 : isNumeric (valueOfJS v) = true
      · cases hq : jsToNumber (valueOfJS v) with
        | none =>
          simp [sqrt, h1, h2, hq, SqrtResult.isError]
        | some q =>
          by_cases h3 : q < 0
          · have hrw : sqrt v = .errorValue v := by
              simp [sqrt, h1, h2, hq, h3]
            rw [hrw]
            simp only [SqrtResult.isError, true_iff]
            exact Or.inr (Or.inr ⟨q, rfl, h3⟩)
          · simp [sqrt, h1, h2, hq, h3, SqrtResult.isError]
      · have h2f : isNumeric (valueOfJS v) = false := by
          cases hb : isNumeric (valueOfJS v)
          · rfl
          · exact absurd hb h2
        simp [sqrt, h1, h2f, SqrtResult.isError]
    · have h1f : isNumeric v = false := by
        cases hb : isNumeric v
        · rfl
        · exact absurd hb h1
      simp [sqrt, h1f, SqrtResult.isError]
  · intro h1 h2 q hq h3
    simp [sqrt, h1, h2, hq, h3]

/-- C8 witness: the error dichotomy applied at `null` (non-numeric). -/
theorem c8_sqrt_witness : (sqrt JSVal.null).isError = true :=
  (c8_sqrt JSVal.null).1.mpr (Or.inl rfl)

/-- C9 (spec-modelled): `power` aborts the caller's control flow when the
argument object, or its required `value` field, is missing — the contract
violation the spec singles out — while a missing `exponent` field defaults
to the identity `value ^ 1`, so on a numeric value the result is the
coerced value itself. -/
theorem c9_power :
    power none = .thrown
    ∧ (∀ e : Option JSVal, power (some ⟨none, e⟩) = .thrown)
    ∧ (∀ q : ℚ, power (some ⟨some (.num q), none⟩) = .value (some q)) := by
  refine ⟨rfl, fun e => rfl, fun q => ?_⟩
  simp [power, isNumeric_num, expandNum_num, Rat.den_one, Rat.num_one, zpow_one]

end SafeMath
